import Mathlib

/-!
Verification of the document model, diff engine, revert logic and document
store of the `refactico/pages` repository, via a shallow embedding of the
TypeScript source into Lean.

JavaScript runtime values that blocks are made of (strings, numbers,
booleans, `null`, `undefined`, arrays, plain objects) are embedded as the
mutual inductive `JsonValue` / `JsonList` / `JsonFields`.  An object is an
association list of key/value pairs in insertion order; property access on
a missing key yields `.undef`, exactly as in JavaScript.
-/

mutual

inductive JsonValue where
  | str (s : String) : JsonValue
  | num (n : Int) : JsonValue
  | bool (b : Bool) : JsonValue
  | null : JsonValue
  | undef : JsonValue
  | arr (items : JsonList) : JsonValue
  | obj (fields : JsonFields) : JsonValue
  deriving DecidableEq

inductive JsonList where
  | nil : JsonList
  | cons (head : JsonValue) (tail : JsonList) : JsonList
  deriving DecidableEq

inductive JsonFields where
  | nil : JsonFields
  | cons (key : String) (value : JsonValue) (rest : JsonFields) : JsonFields
  deriving DecidableEq

end

/-- JavaScript property access `obj[key]`: the value stored under `key`,
or `undefined` when the key is absent. -/
def lookupField : JsonFields → String → JsonValue
  | .nil, _ => .undef
  | .cons k v rest, key => if k == key then v else lookupField rest key

/-- Number of elements of an embedded JavaScript array (`a.length`). -/
def jsonListLength : JsonList → Nat
  | .nil => 0
  | .cons _ tl => jsonListLength tl + 1

/-- Number of keys of an embedded JavaScript object (`Object.keys(o).length`). -/
def fieldsLength : JsonFields → Nat
  | .nil => 0
  | .cons _ _ rest => fieldsLength rest + 1

/-- `Object.keys`, in insertion order. -/
def fieldKeys : JsonFields → List String
  | .nil => []
  | .cons k _ rest => k :: fieldKeys rest

mutual

/-- `deepEqual` from `src/lib/JsonDiff/utils.ts` (lines 7-28): primitives by
strict equality, arrays by length plus element-wise recursion, objects by
key-count plus per-key recursion over the first object's keys, every
type mismatch (including `null` vs `undefined` vs anything else) unequal. -/
def deepEqual : JsonValue → JsonValue → Bool
  | .str a, .str b => a == b
  | .num a, .num b => a == b
  | .bool a, .bool b => a == b
  | .null, .null => true
  | .undef, .undef => true
  | .arr a, .arr b => jsonListLength a == jsonListLength b && deepEqualList a b
  | .obj a, .obj b => fieldsLength a == fieldsLength b && deepEqualFields a b
  | _, _ => false

/-- `a.every((item, index) => deepEqual(item, b[index]))` for two arrays
whose lengths have already been compared. -/
def deepEqualList : JsonList → JsonList → Bool
  | .nil, .nil => true
  | .cons x xs, .cons y ys => deepEqual x y && deepEqualList xs ys
  | _, _ => false

/-- `aKeys.every((key) => deepEqual(aObj[key], bObj[key]))`. -/
def deepEqualFields : JsonFields → JsonFields → Bool
  | .nil, _ => true
  | .cons k v rest, bs => deepEqual v (lookupField bs k) && deepEqualFields rest bs

end

/-!
The block / document data model, from `src/lib/PagesEditor/types.ts`.
A block is a JavaScript object with a string `id` property; every property
other than `id` (the `type` discriminant included) is kept in `fields`.
-/

/-- One content block: the stable `id` plus all other properties
(`type`, `content`, `items`, ... ) as a JavaScript object. -/
structure Block where
  id : String
  fields : JsonFields
  deriving DecidableEq

/-- `EditorData` from `src/lib/PagesEditor/types.ts`. -/
structure EditorData where
  version : String
  createdAt : String
  updatedAt : String
  blocks : List Block
  deriving DecidableEq

/-!
Diff data model, from `src/lib/JsonDiff/types.ts`.
-/

inductive DiffType where
  | added | removed | modified | unchanged
  deriving DecidableEq, BEq

/-- `PropertyChange` from `src/lib/JsonDiff/types.ts`. -/
structure PropertyChange where
  path : String
  oldValue : JsonValue
  newValue : JsonValue
  deriving DecidableEq

/-- `BlockDiff` from `src/lib/JsonDiff/types.ts`. -/
structure BlockDiff where
  type : DiffType
  oldBlock : Option Block
  newBlock : Option Block
  changes : Option (List PropertyChange)
  deriving DecidableEq

/-- `DiffSummary` from `src/lib/JsonDiff/types.ts`. -/
structure DiffSummary where
  added : Nat
  removed : Nat
  modified : Nat
  unchanged : Nat
  deriving DecidableEq

/-- `DiffResult` from `src/lib/JsonDiff/types.ts`. -/
structure DiffResult where
  blocks : List BlockDiff
  summary : DiffSummary
  deriving DecidableEq

/-- `new Set([...])` over key lists: deduplication keeping first
(insertion-order) occurrences. -/
def setOfKeys (keys : List String) : List String :=
  keys.foldl (fun acc k => if acc.contains k then acc else acc ++ [k]) []

/-- `getPropertyChanges` from `src/lib/JsonDiff/utils.ts` (lines 33-57):
walk the union of both blocks' property keys, skip `id`, and record a
`{path, oldValue, newValue}` entry for every key whose values are not
`deepEqual`. -/
def getPropertyChanges (oldBlock newBlock : Block) : List PropertyChange :=
  let allKeys := setOfKeys (fieldKeys oldBlock.fields ++ fieldKeys newBlock.fields)
  allKeys.filterMap (fun key =>
    if key == "id" then none
    else
      let oldValue := lookupField oldBlock.fields key
      let newValue := lookupField newBlock.fields key
      if deepEqual oldValue newValue then none
      else some ⟨key, oldValue, newValue⟩)

/-- `new Map(blocks.map((b) => [b.id, b])).get(i)`: lookup by id where a
later duplicate id overrides an earlier one, as in a JavaScript `Map`. -/
def findById : List Block → String → Option Block
  | [], _ => none
  | b :: bs, i =>
      match findById bs i with
      | some r => some r
      | none => if b.id == i then some b else none

/-- The diff entry produced for one block of the new document during the
walk in `compareEditorData` (lines 78-94 of `src/lib/JsonDiff/utils.ts`). -/
def walkEntry (oldBlocks : List Block) (newBlock : Block) : BlockDiff :=
  match findById oldBlocks newBlock.id with
  | none => ⟨.added, none, some newBlock, none⟩
  | some oldBlock =>
      let changes := getPropertyChanges oldBlock newBlock
      if changes.length > 0 then ⟨.modified, some oldBlock, some newBlock, some changes⟩
      else ⟨.unchanged, some oldBlock, some newBlock, none⟩

/-- `compareEditorData` from `src/lib/JsonDiff/utils.ts` (lines 62-112):
walk the new document's blocks in order (added / modified / unchanged),
append a removed entry for every old block whose id was not processed,
then count each classification for the summary. -/
def compareEditorData (oldData newData : EditorData) : DiffResult :=
  let oldBlocks := oldData.blocks
  let newBlocks := newData.blocks
  let walked := newBlocks.map (walkEntry oldBlocks)
  let removedEntries :=
    (oldBlocks.filter (fun b => !(newBlocks.any (fun nb => nb.id == b.id)))).map
      (fun b => (⟨.removed, some b, none, none⟩ : BlockDiff))
  let blockDiffs := walked ++ removedEntries
  { blocks := blockDiffs
    summary :=
      { added := (blockDiffs.filter (fun d => d.type == .added)).length
        removed := (blockDiffs.filter (fun d => d.type == .removed)).length
        modified := (blockDiffs.filter (fun d => d.type == .modified)).length
        unchanged := (blockDiffs.filter (fun d => d.type == .unchanged)).length } }

/-- The block identity a diff entry is about: the new block's id when
present, otherwise the old block's id. -/
def entryId (d : BlockDiff) : String :=
  match d.newBlock with
  | some b => b.id
  | none =>
      match d.oldBlock with
      | some b => b.id
      | none => ""

/-!
Revert / reconciliation logic, from `handleRevert` in the `JsonDiff`
component (`src/unnamed/part_001`, lines 107-149).
-/

/-- `blocks.findIndex((b) => b.id === i)`, as `Option Nat` (`none` is the
JavaScript `-1`): the index of the first block with the given id. -/
def findIndexById : List Block → String → Option Nat
  | [], _ => none
  | b :: bs, i => if b.id == i then some 0 else (findIndexById bs i).map (· + 1)

/-- The backward scan of `handleRevert`'s removed branch (lines 120-128):
`for (let i = oldIndex - 1; i >= 0; i--)` looking for the first old block
that still occurs in the current blocks; the fuel argument is `i + 1`, so
`scanBack oldBlocks current j` runs the loop from `i = j - 1` down to `0`
and returns the insertion index (defaulting to `current.length`). -/
def scanBack (oldBlocks current : List Block) : Nat → Nat
  | 0 => current.length
  | i + 1 =>
      match oldBlocks[i]? with
      | some prevBlock =>
          match findIndexById current prevBlock.id with
          | some p => p + 1
          | none => scanBack oldBlocks current i
      | none => scanBack oldBlocks current i

/-- The removed branch of `handleRevert` (lines 114-129): find the removed
block's index in the old document, scan backward for a surviving
predecessor, and splice the old block in at the resulting index. -/
def revertRemovedBlocks (oldBlocks current : List Block) (oldBlock : Block) : List Block :=
  let insertIndex :=
    match findIndexById oldBlocks oldBlock.id with
    | none => current.length
    | some j => scanBack oldBlocks current j
  current.take insertIndex ++ oldBlock :: current.drop insertIndex

/-- The `newBlocks` computed by `handleRevert` (lines 109-137): `none` when
the trailing `else { return; }` is reached (a classification with its
required block reference missing, or an `unchanged` entry). -/
def revertNewBlocks (oldData currentData : EditorData) (diff : BlockDiff) :
    Option (List Block) :=
  match diff.type, diff.oldBlock, diff.newBlock with
  | .added, _, some nb => some (currentData.blocks.filter (fun b => !(b.id == nb.id)))
  | .removed, some ob, _ => some (revertRemovedBlocks oldData.blocks currentData.blocks ob)
  | .modified, some ob, some nb =>
      some (currentData.blocks.map (fun b => if b.id == nb.id then ob else b))
  | _, _, _ => none

/-- `handleRevert` (lines 107-149): compute the new blocks, then replace the
current document with `{...currentData, blocks, updatedAt: now}`; `none`
when the early `return` fires and no state update happens at all. -/
def handleRevert (oldData currentData : EditorData) (now : String) (diff : BlockDiff) :
    Option EditorData :=
  (revertNewBlocks oldData currentData diff).map
    (fun newBlocks => { currentData with blocks := newBlocks, updatedAt := now })

/-- The current document after a revert click: the updated document when
`handleRevert` ran to completion, the unchanged document when it returned
early. -/
def applyRevert (oldData : EditorData) (diff : BlockDiff) (now : String)
    (currentData : EditorData) : EditorData :=
  match handleRevert oldData currentData now diff with
  | some d => d
  | none => currentData

/-- Follows the spec's words (§4.5): the nearest block preceding position
`j` in the old document that still exists (by id) in the current blocks,
found by scanning backward. -/
def nearestSurvivingPred (oldBlocks current : List Block) (j : Nat) : Option Block :=
  ((oldBlocks.take j).reverse).find? (fun pb => current.any (fun c => c.id == pb.id))

/-- Follows the spec's words (§4.5, removed branch): reinsert the removed
block immediately after its nearest surviving predecessor's current
position, or append it at the end when no predecessor survives. -/
def specRevertRemoved (oldBlocks current : List Block) (j : Nat) (oldBlock : Block) :
    List Block :=
  match nearestSurvivingPred oldBlocks current j with
  | some pb =>
      match findIndexById current pb.id with
      | some p => current.take (p + 1) ++ oldBlock :: current.drop (p + 1)
      | none => current ++ [oldBlock]
  | none => current ++ [oldBlock]

/-!
`moveArrayItem` from `src/lib/PagesEditor/utils.ts` (lines 144-151), built
on JavaScript `splice`. Indices are JavaScript numbers, embedded as `Int`:
`splice` clamps a negative index to `max(length + index, 0)` and an
overlarge one to `length`.
-/

/-- The actual start position used by `splice(i, ...)` on an array of the
given length. -/
def normSpliceIndex (len : Nat) (i : Int) : Nat :=
  if i < 0 then (len + i).toNat else min i.toNat len

/-- `moveArrayItem` (lines 144-151): copy the array, `splice` out the
element at `fromIndex` and, when one was removed (`item !== undefined`),
`splice` it back in at `toIndex`. -/
def moveArrayItem {α : Type} (arr : List α) (fromIndex toIndex : Int) : List α :=
  let s := normSpliceIndex arr.length fromIndex
  match (arr.drop s).head? with
  | some item =>
      let rest := arr.take s ++ arr.drop (s + 1)
      let t := normSpliceIndex rest.length toIndex
      rest.take t ++ item :: rest.drop t
  | none => arr.take s ++ arr.drop (s + 1)

/-!
The document store (`PagesEditor` in `src/lib/PagesEditor/PagesEditor.stories.tsx`):
the live document plus at most one pending debounced notification.  The
pending timer is `some (fireTime, payload)`; `updateData` (lines 499-519)
clears any pending timer and schedules a fresh one `debounceDelay`
milliseconds after the mutation, carrying the document built at mutation
time.
-/

structure StoreState where
  doc : EditorData
  pending : Option (Nat × EditorData)
  deriving DecidableEq

/-- `updateData` (lines 499-519) at time `t`: replace the document with
`{...data, blocks: newBlocks, updatedAt: now}`, cancel the pending timer
and schedule the notification for `t + delay` with the new document. -/
def updateData (delay : Nat) (s : StoreState) (newBlocks : List Block) (t : Nat)
    (now : String) : StoreState :=
  let newData : EditorData := { s.doc with blocks := newBlocks, updatedAt := now }
  { doc := newData, pending := some (t + delay, newData) }

/-- `blocks.filter((_, i) => i !== index)` with the running position
starting at `pos`. -/
def deleteBlockAux : List Block → Int → Int → List Block
  | [], _, _ => []
  | b :: bs, pos, index =>
      if pos == index then deleteBlockAux bs (pos + 1) index
      else b :: deleteBlockAux bs (pos + 1) index

/-- The blocks produced by `deleteBlock` (lines 547-553):
`data.blocks.filter((_, i) => i !== index)`. -/
def deleteBlockList (blocks : List Block) (index : Int) : List Block :=
  deleteBlockAux blocks 0 index

/-- `deleteBlock` (lines 547-553): filter out the indexed block and feed the
result through `updateData`. -/
def deleteBlock (delay : Nat) (s : StoreState) (index : Int) (t : Nat) (now : String) :
    StoreState :=
  updateData delay s (deleteBlockList s.doc.blocks index) t now

/-- Externally visible store events: a mutation (already reduced to the new
blocks it produces) at an absolute time, or unmounting the component. -/
inductive StoreEvent where
  | mutate (newBlocks : List Block) (now : String) (t : Nat)
  | unmount (t : Nat)

/-- Deliver the pending notification if its timer is due at time `t`. -/
def fireIfDue (s : StoreState) (t : Nat) : StoreState × List EditorData :=
  match s.pending with
  | some (fireTime, payload) =>
      if fireTime ≤ t then ({ s with pending := none }, [payload]) else (s, [])
  | none => (s, [])

/-- One store event at its timestamp: any timer due by then fires first;
a mutation then runs `updateData`, an unmount runs the cleanup effect
(lines 491-497) that clears the pending timer. -/
def stepEvent (delay : Nat) (s : StoreState) : StoreEvent → StoreState × List EditorData
  | .mutate newBlocks now t =>
      let fired := fireIfDue s t
      (updateData delay fired.1 newBlocks t now, fired.2)
  | .unmount t =>
      let fired := fireIfDue s t
      ({ fired.1 with pending := none }, fired.2)

/-- Run a time-ordered list of store events, collecting every `onChange`
notification in order. -/
def runEvents (delay : Nat) (s : StoreState) : List StoreEvent → StoreState × List EditorData
  | [] => (s, [])
  | e :: es =>
      let step := stepEvent delay s e
      let rest := runEvents delay step.1 es
      (rest.1, step.2 ++ rest.2)

/-- The notifications still delivered after the last event if the store is
left alone until every timer fires. -/
def settle (s : StoreState) : List EditorData :=
  match s.pending with
  | some (_, payload) => [payload]
  | none => []

/-!
Structural validation and store initialization
(`src/lib/PagesEditor/utils.ts` lines 126-135 and
`src/lib/PagesEditor/PagesEditor.stories.tsx` lines 443-448).
-/

def isStringValue : JsonValue → Bool
  | .str _ => true
  | _ => false

def isArrayValue : JsonValue → Bool
  | .arr _ => true
  | _ => false

/-- `validateEditorData` (lines 126-135): the value is a (truthy) object
and its `version`, `createdAt`, `updatedAt` properties are strings and
`blocks` is an array.  A non-object (including `null`, `undefined` and an
array, whose named properties are all `undefined`) evaluates to `false`. -/
def validateEditorData : JsonValue → Bool
  | .obj fields =>
      isStringValue (lookupField fields "version") &&
      isStringValue (lookupField fields "createdAt") &&
      isStringValue (lookupField fields "updatedAt") &&
      isArrayValue (lookupField fields "blocks")
  | _ => false

/-- `createEmptyEditorData` (lines 23-28) as the raw document value:
version `1.0.0`, both timestamps set to `now`, no blocks. -/
def emptyEditorDataJson (now : String) : JsonValue :=
  .obj (.cons "version" (.str "1.0.0") (.cons "createdAt" (.str now)
    (.cons "updatedAt" (.str now) (.cons "blocks" (.arr .nil) .nil))))

/-- The `useState` initializer of `PagesEditor` (lines 443-448): keep the
caller-supplied document when `initialData && validateEditorData(initialData)`,
otherwise fall back to a fresh empty document.  (A falsy `initialData` also
fails `validateEditorData`, so the single test covers the `&&`.) -/
def initialStoreDoc (initialData : JsonValue) (now : String) : JsonValue :=
  if validateEditorData initialData then initialData else emptyEditorDataJson now

/-!
Persistence round-trip (spec §6).  The repository contains no serializer:
the spec designates plain JSON serialization (`JSON.stringify` /
`JSON.parse`, then `validate` + direct assignment) as the persistence
mechanism, so that mechanism is modelled here.
-/

/-- Modelled from the spec: the JSON-compatible structure of a block —
its `id` together with every other property, as one plain object
(the serializer itself is not part of the repository's source). -/
def serializeBlock (b : Block) : JsonValue :=
  .obj (.cons "id" (.str b.id) b.fields)

/-- Modelled from the spec: a document's blocks as a JSON array. -/
def blocksToJsonList : List Block → JsonList
  | [] => .nil
  | b :: bs => .cons (serializeBlock b) (blocksToJsonList bs)

/-- Modelled from the spec: the JSON-compatible structure of a Document
matching §3 exactly: `version`, `createdAt`, `updatedAt` and the `blocks`
array. -/
def serializeEditorData (d : EditorData) : JsonValue :=
  .obj (.cons "version" (.str d.version) (.cons "createdAt" (.str d.createdAt)
    (.cons "updatedAt" (.str d.updatedAt)
      (.cons "blocks" (.arr (blocksToJsonList d.blocks)) .nil))))

mutual

/-- What a value becomes after `JSON.parse(JSON.stringify(v))`: object
properties whose value is `undefined` are dropped, `undefined` array
elements become `null`, everything else survives recursively. -/
def jsonNormalize : JsonValue → JsonValue
  | .arr items => .arr (jsonNormalizeList items)
  | .obj fields => .obj (jsonNormalizeFields fields)
  | v => v

def jsonNormalizeList : JsonList → JsonList
  | .nil => .nil
  | .cons .undef tl => .cons .null (jsonNormalizeList tl)
  | .cons v tl => .cons (jsonNormalize v) (jsonNormalizeList tl)

def jsonNormalizeFields : JsonFields → JsonFields
  | .nil => .nil
  | .cons _ .undef rest => jsonNormalizeFields rest
  | .cons k v rest => .cons k (jsonNormalize v) (jsonNormalizeFields rest)

end

mutual

/-- `true` when `undefined` occurs nowhere inside the value. -/
def undefFree : JsonValue → Bool
  | .undef => false
  | .arr items => undefFreeList items
  | .obj fields => undefFreeFields fields
  | _ => true

def undefFreeList : JsonList → Bool
  | .nil => true
  | .cons v tl => undefFree v && undefFreeList tl

def undefFreeFields : JsonFields → Bool
  | .nil => true
  | .cons _ v rest => undefFree v && undefFreeFields rest

end

/-- Remove every property named `key`. -/
def removeField : JsonFields → String → JsonFields
  | .nil, _ => .nil
  | .cons k v rest, key =>
      if k == key then removeField rest key else .cons k v (removeField rest key)

/-- Modelled from the spec: rehydrating one block from its parsed JSON
object — the `id` property (which must be a string) becomes the block's
identity, every other property its content. -/
def deserializeBlock : JsonValue → Option Block
  | .obj fs =>
      match lookupField fs "id" with
      | .str i => some ⟨i, removeField fs "id"⟩
      | _ => none
  | _ => none

/-- Modelled from the spec: rehydrating the blocks array element-wise. -/
def deserializeBlocks : JsonList → Option (List Block)
  | .nil => some []
  | .cons v tl =>
      match deserializeBlock v, deserializeBlocks tl with
      | some b, some bs => some (b :: bs)
      | _, _ => none

/-- Modelled from the spec: rehydration via `validate` + direct assignment
of the parsed JSON value (spec §6). -/
def deserializeEditorData (v : JsonValue) : Option EditorData :=
  if validateEditorData v then
    match v with
    | .obj fs =>
        match lookupField fs "version", lookupField fs "createdAt",
              lookupField fs "updatedAt", lookupField fs "blocks" with
        | .str ver, .str ca, .str ua, .arr bl =>
            (deserializeBlocks bl).map (fun bs => ⟨ver, ca, ua, bs⟩)
        | _, _, _, _ => none
    | _ => none
  else none

/-- A block whose serialized form survives the JSON round-trip unchanged:
no property is explicitly `undefined` and no property shadows `id`. -/
def blockSerializable (b : Block) : Bool :=
  !((fieldKeys b.fields).contains "id") && undefFreeFields b.fields

/-- Every block of the document is serializable. -/
def docSerializable (d : EditorData) : Bool :=
  d.blocks.all blockSerializable

/-!
### Helper lemmas
-/

theorem insert_take_drop_perm {α : Type} (l : List α) (x : α) (t : Nat) :
    (l.take t ++ x :: l.drop t).Perm (x :: l) := by
  have h := @List.perm_middle _ x (l.take t) (l.drop t)
  rwa [List.take_append_drop] at h

/-- C6: `moveArrayItem` returns a permutation of its input of the same
length, for every pair of (JavaScript-number) indices.  The input is never
mutated: the embedding is a pure function of the input list, which is
returned untouched as part of the claim via the permutation relation. -/
theorem moveArrayItem_perm {α : Type} (arr : List α) (fromIndex toIndex : Int) :
    (moveArrayItem arr fromIndex toIndex).Perm arr ∧
    (moveArrayItem arr fromIndex toIndex).length = arr.length := by
  have hperm : (moveArrayItem arr fromIndex toIndex).Perm arr := by
    cases h : (arr.drop (normSpliceIndex arr.length fromIndex)).head? with
    | none =>
        have hnil := List.head?_eq_none_iff.mp h
        have hlen : arr.length ≤ normSpliceIndex arr.length fromIndex :=
          List.drop_eq_nil_iff.mp hnil
        simp only [moveArrayItem, h]
        rw [List.take_of_length_le hlen, List.drop_eq_nil_iff.mpr (by omega)]
        simp
    | some item =>
        have ht := List.tail_drop arr (normSpliceIndex arr.length fromIndex)
        have hd : arr.drop (normSpliceIndex arr.length fromIndex)
            = item :: arr.drop (normSpliceIndex arr.length fromIndex + 1) := by
          cases hc : arr.drop (normSpliceIndex arr.length fromIndex) with
          | nil => rw [hc] at h; simp at h
          | cons a l =>
              rw [hc] at h ht
              simp only [List.head?_cons, Option.some.injEq] at h
              simp only [List.tail_cons] at ht
              rw [h, ht]
        have harr : arr = arr.take (normSpliceIndex arr.length fromIndex)
            ++ item :: arr.drop (normSpliceIndex arr.length fromIndex + 1) := by
          conv_lhs => rw [← List.take_append_drop (normSpliceIndex arr.length fromIndex) arr]
          rw [hd]
        simp only [moveArrayItem, h]
        refine (insert_take_drop_perm _ _ _).trans ?_
        conv_rhs => rw [harr]
        exact List.perm_middle.symm
  exact ⟨hperm, hperm.length_eq⟩

theorem entryId_walkEntry (oldBlocks : List Block) (nb : Block) :
    entryId (walkEntry oldBlocks nb) = nb.id := by
  unfold walkEntry
  cases findById oldBlocks nb.id with
  | none => rfl
  | some ob => dsimp only; split <;> rfl

theorem walkEntry_type_ne_removed (oldBlocks : List Block) (nb : Block) :
    (walkEntry oldBlocks nb).type ≠ .removed := by
  unfold walkEntry
  cases findById oldBlocks nb.id with
  | none => simp [entryId]
  | some ob => dsimp only; split <;> simp

/-- The entry ids of a diff, in order: the new document's ids followed by
the ids of the old blocks absent from the new document. -/
theorem diff_entryIds (oldData newData : EditorData) :
    (compareEditorData oldData newData).blocks.map entryId
      = newData.blocks.map Block.id
        ++ (oldData.blocks.filter
            (fun b => !(newData.blocks.any (fun nb => nb.id == b.id)))).map Block.id := by
  have h1 : (newData.blocks.map (walkEntry oldData.blocks)).map entryId
      = newData.blocks.map Block.id := by
    rw [List.map_map]
    exact List.map_congr_left (fun b _ => entryId_walkEntry _ b)
  have h2 : ((oldData.blocks.filter
        (fun b => !(newData.blocks.any (fun nb => nb.id == b.id)))).map
      (fun b => (⟨.removed, some b, none, none⟩ : BlockDiff))).map entryId
      = (oldData.blocks.filter
          (fun b => !(newData.blocks.any (fun nb => nb.id == b.id)))).map Block.id := by
    rw [List.map_map]
    exact List.map_congr_left (fun b _ => rfl)
  show (newData.blocks.map (walkEntry oldData.blocks)
      ++ (oldData.blocks.filter
          (fun b => !(newData.blocks.any (fun nb => nb.id == b.id)))).map
        (fun b => (⟨.removed, some b, none, none⟩ : BlockDiff))).map entryId = _
  rw [List.map_append, h1, h2]

/-- C3: diff entries follow the new document's block order — the first
`|new|` entries carry the new ids in new-document order and are not
`removed`, and every entry after them is a `removed` entry, the removed
old blocks appearing in old-document order. -/
theorem compareEditorData_order (oldData newData : EditorData) :
    ((compareEditorData oldData newData).blocks.map entryId
      = newData.blocks.map Block.id
        ++ (oldData.blocks.filter
            (fun b => !(newData.blocks.any (fun nb => nb.id == b.id)))).map Block.id)
    ∧ (∀ d ∈ (compareEditorData oldData newData).blocks.drop newData.blocks.length,
        d.type = .removed)
    ∧ (∀ d ∈ (compareEditorData oldData newData).blocks.take newData.blocks.length,
        d.type ≠ .removed) := by
  have hlen : (newData.blocks.map (walkEntry oldData.blocks)).length = newData.blocks.length :=
    List.length_map _ _
  refine ⟨diff_entryIds oldData newData, ?_, ?_⟩
  · intro d hd
    have : (compareEditorData oldData newData).blocks.drop newData.blocks.length
        = (oldData.blocks.filter
            (fun b => !(newData.blocks.any (fun nb => nb.id == b.id)))).map
          (fun b => (⟨.removed, some b, none, none⟩ : BlockDiff)) := by
      show ((newData.blocks.map (walkEntry oldData.blocks)) ++ _).drop newData.blocks.length = _
      rw [← hlen, List.drop_left]
    rw [this] at hd
    obtain ⟨b, _, rfl⟩ := List.mem_map.mp hd
    rfl
  · intro d hd
    have : (compareEditorData oldData newData).blocks.take newData.blocks.length
        = newData.blocks.map (walkEntry oldData.blocks) := by
      show ((newData.blocks.map (walkEntry oldData.blocks)) ++ _).take newData.blocks.length = _
      rw [← hlen, List.take_left]
    rw [this] at hd
    obtain ⟨b, _, rfl⟩ := List.mem_map.mp hd
    exact walkEntry_type_ne_removed _ b

theorem deleteBlockAux_out_of_range (blocks : List Block) :
    ∀ (pos index : Int), (index < pos ∨ pos + blocks.length ≤ index) →
      deleteBlockAux blocks pos index = blocks := by
  induction blocks with
  | nil => intro pos index _; rfl
  | cons b bs ih =>
      intro pos index h
      have hne : (pos == index) = false := by
        refine beq_eq_false_iff_ne.mpr ?_
        rcases h with h | h
        · omega
        · simp only [List.length_cons] at h; omega
      simp only [deleteBlockAux, hne, Bool.false_eq_true, if_false]
      congr 1
      apply ih
      rcases h with h | h
      · left; omega
      · right; simp only [List.length_cons] at h; push_cast at h ⊢; omega

/-- C10: `deleteBlock` at an out-of-range index leaves the blocks sequence
element-for-element unchanged, yet still replaces the stored document with
a refreshed `updatedAt` and schedules a debounced notification carrying
that otherwise-unchanged state. -/
theorem deleteBlock_out_of_range (delay : Nat) (s : StoreState) (index : Int) (t : Nat)
    (now : String) (h : index < 0 ∨ (s.doc.blocks.length : Int) ≤ index) :
    (deleteBlock delay s index t now).doc.blocks = s.doc.blocks
    ∧ (deleteBlock delay s index t now).doc.updatedAt = now
    ∧ (deleteBlock delay s index t now).doc.version = s.doc.version
    ∧ (deleteBlock delay s index t now).doc.createdAt = s.doc.createdAt
    ∧ (deleteBlock delay s index t now).pending
        = some (t + delay, (deleteBlock delay s index t now).doc) := by
  have hdel : deleteBlockList s.doc.blocks index = s.doc.blocks := by
    apply deleteBlockAux_out_of_range
    rcases h with h | h
    · left; omega
    · right; omega
  exact ⟨hdel, rfl, rfl, rfl, rfl⟩

theorem deleteBlock_out_of_range_witness :
    (deleteBlock 300 ⟨⟨"1.0.0", "c", "u", [⟨"a", .nil⟩]⟩, none⟩ 5 10 "now").doc.blocks
        = [⟨"a", JsonFields.nil⟩]
    ∧ (deleteBlock 300 ⟨⟨"1.0.0", "c", "u", [⟨"a", .nil⟩]⟩, none⟩ 5 10 "now").doc.updatedAt
        = "now"
    ∧ (deleteBlock 300 ⟨⟨"1.0.0", "c", "u", [⟨"a", .nil⟩]⟩, none⟩ 5 10 "now").doc.version
        = "1.0.0"
    ∧ (deleteBlock 300 ⟨⟨"1.0.0", "c", "u", [⟨"a", .nil⟩]⟩, none⟩ 5 10 "now").doc.createdAt
        = "c"
    ∧ (deleteBlock 300 ⟨⟨"1.0.0", "c", "u", [⟨"a", .nil⟩]⟩, none⟩ 5 10 "now").pending
        = some (310, (deleteBlock 300 ⟨⟨"1.0.0", "c", "u", [⟨"a", .nil⟩]⟩, none⟩ 5 10 "now").doc) :=
  deleteBlock_out_of_range 300 ⟨⟨"1.0.0", "c", "u", [⟨"a", .nil⟩]⟩, none⟩ 5 10 "now"
    (by decide)

/-- C8: an initial-data value failing `validateEditorData` is discarded
silently — the store starts from the empty document (no blocks, both
timestamps fresh), and that fallback itself validates; the initializer is
total, so no error is surfaced. -/
theorem initialStoreDoc_invalid (d : JsonValue) (now : String)
    (h : validateEditorData d = false) :
    initialStoreDoc d now = emptyEditorDataJson now
    ∧ validateEditorData (emptyEditorDataJson now) = true := by
  refine ⟨?_, rfl⟩
  simp [initialStoreDoc, h]

theorem initialStoreDoc_invalid_witness :
    validateEditorData .null = false
    ∧ (initialStoreDoc .null "T" = emptyEditorDataJson "T"
       ∧ validateEditorData (emptyEditorDataJson "T") = true) :=
  ⟨rfl, initialStoreDoc_invalid .null "T" rfl⟩

/-- C4 counterexample: reverting the same `removed` diff entry twice is NOT
a no-op — the removed branch of `handleRevert` splices the old block in
unconditionally, so the second application inserts a duplicate.  Old
document `[B]`, current document `[]`: one revert yields `[B]`, a second
revert yields `[B, B]`. -/
theorem applyRevert_removed_not_idempotent :
    ¬ ((applyRevert ⟨"1.0.0", "c", "u", [⟨"b", .nil⟩]⟩
          ⟨.removed, some ⟨"b", .nil⟩, none, none⟩ "t2"
          (applyRevert ⟨"1.0.0", "c", "u", [⟨"b", .nil⟩]⟩
            ⟨.removed, some ⟨"b", .nil⟩, none, none⟩ "t1"
            ⟨"1.0.0", "c", "u2", []⟩)).blocks
        = (applyRevert ⟨"1.0.0", "c", "u", [⟨"b", .nil⟩]⟩
            ⟨.removed, some ⟨"b", .nil⟩, none, none⟩ "t1"
            ⟨"1.0.0", "c", "u2", []⟩).blocks) := by
  decide

/-- C4 (amended): applying revert twice to the same diff entry yields the
same blocks as applying it once for `added`, `modified` and `unchanged`
entries — including when the entry's referenced block no longer exists in
the current document — and for degenerate entries whose required block
reference is absent; a `removed` entry with its old block present is the
exception, whose second application inserts the block again. -/
theorem applyRevert_idempotent_amended (oldData currentData : EditorData) (diff : BlockDiff)
    (now1 now2 : String) (h : diff.type = DiffType.removed → diff.oldBlock = none) :
    (applyRevert oldData diff now2 (applyRevert oldData diff now1 currentData)).blocks
      = (applyRevert oldData diff now1 currentData).blocks := by
  obtain ⟨ty, ob, nb, ch⟩ := diff
  cases ty with
  | added =>
      cases nb with
      | none => rfl
      | some b =>
          show ((currentData.blocks.filter (fun x => !(x.id == b.id))).filter
              (fun x => !(x.id == b.id))) = currentData.blocks.filter (fun x => !(x.id == b.id))
          rw [List.filter_filter]
          simp only [Bool.and_self]
  | removed =>
      have hob : ob = none := h rfl
      subst hob
      rfl
  | modified =>
      cases ob with
      | none => rfl
      | some o =>
          cases nb with
          | none => rfl
          | some n =>
              show ((currentData.blocks.map (fun x => if x.id == n.id then o else x)).map
                  (fun x => if x.id == n.id then o else x))
                  = currentData.blocks.map (fun x => if x.id == n.id then o else x)
              rw [List.map_map]
              apply List.map_congr_left
              intro a _
              simp only [Function.comp_apply]
              cases hx : a.id == n.id with
              | false => simp [hx]
              | true => simp [hx, ite_self]
  | unchanged => rfl

theorem applyRevert_idempotent_witness :
    (applyRevert ⟨"1.0.0", "c", "u", []⟩ ⟨.added, none, some ⟨"x", .nil⟩, none⟩ "t2"
        (applyRevert ⟨"1.0.0", "c", "u", []⟩ ⟨.added, none, some ⟨"x", .nil⟩, none⟩ "t1"
          ⟨"1.0.0", "c", "u2", [⟨"x", .nil⟩, ⟨"y", .nil⟩]⟩)).blocks
      = (applyRevert ⟨"1.0.0", "c", "u", []⟩ ⟨.added, none, some ⟨"x", .nil⟩, none⟩ "t1"
          ⟨"1.0.0", "c", "u2", [⟨"x", .nil⟩, ⟨"y", .nil⟩]⟩).blocks :=
  applyRevert_idempotent_amended ⟨"1.0.0", "c", "u", []⟩
    ⟨"1.0.0", "c", "u2", [⟨"x", .nil⟩, ⟨"y", .nil⟩]⟩
    ⟨.added, none, some ⟨"x", .nil⟩, none⟩ "t1" "t2" (by decide)

theorem findIndexById_lt_length (i : String) :
    ∀ (l : List Block) (j : Nat), findIndexById l i = some j → j < l.length := by
  intro l
  induction l with
  | nil => intro j h; simp [findIndexById] at h
  | cons b bs ih =>
      intro j h
      simp only [findIndexById] at h
      by_cases hb : (b.id == i) = true
      · rw [if_pos hb] at h
        injection h with h
        simp only [List.length_cons]
        omega
      · rw [if_neg hb] at h
        cases hfind : findIndexById bs i with
        | none => rw [hfind] at h; simp at h
        | some p =>
            rw [hfind] at h
            simp only [Option.map_some'] at h
            injection h with h
            have := ih p hfind
            simp only [List.length_cons]
            omega

theorem findIndexById_eq_none_iff (l : List Block) (i : String) :
    findIndexById l i = none ↔ l.any (fun b => b.id == i) = false := by
  induction l with
  | nil => simp [findIndexById]
  | cons b bs ih =>
      simp only [findIndexById, List.any_cons]
      by_cases hb : (b.id == i) = true
      · simp [hb]
      · rw [Bool.not_eq_true] at hb
        simp [hb, Option.map_eq_none', ih]

/-- The spec-side insertion index: one past the current position of the
nearest surviving predecessor, or the end of the current blocks. -/
def specInsertIndex (oldBlocks current : List Block) (j : Nat) : Nat :=
  match nearestSurvivingPred oldBlocks current j with
  | some pb =>
      match findIndexById current pb.id with
      | some p => p + 1
      | none => current.length
  | none => current.length

theorem scanBack_eq_specInsertIndex (oldBlocks current : List Block) :
    ∀ j, j ≤ oldBlocks.length →
      scanBack oldBlocks current j = specInsertIndex oldBlocks current j := by
  intro j
  induction j with
  | zero =>
      intro _
      simp [scanBack, specInsertIndex, nearestSurvivingPred]
  | succ i ih =>
      intro hle
      have hi : i < oldBlocks.length := by omega
      have hpb : oldBlocks[i]? = some oldBlocks[i] := List.getElem?_eq_getElem hi
      have htake : (oldBlocks.take (i + 1)).reverse
          = oldBlocks[i] :: (oldBlocks.take i).reverse := by
        rw [List.take_succ, hpb]
        simp
      cases hany : current.any (fun c => c.id == oldBlocks[i].id) with
      | true =>
          have hfind : findIndexById current oldBlocks[i].id ≠ none := by
            simp [findIndexById_eq_none_iff, hany]
          obtain ⟨p, hp⟩ := Option.ne_none_iff_exists'.mp hfind
          have hpos : (fun pb => current.any (fun c => c.id == pb.id)) oldBlocks[i] = true := by
            simpa using hany
          simp only [scanBack, hpb, hp]
          rw [specInsertIndex, nearestSurvivingPred, htake,
            @List.find?_cons_of_pos Block (fun pb => current.any fun c => c.id == pb.id)
              oldBlocks[i] (List.take i oldBlocks).reverse hpos]
          simp [hp]
      | false =>
          have hfind : findIndexById current oldBlocks[i].id = none := by
            rw [findIndexById_eq_none_iff]
            exact hany
          have hneg : ¬ (fun pb => current.any (fun c => c.id == pb.id)) oldBlocks[i] = true := by
            simpa using hany
          simp only [scanBack, hpb, hfind]
          rw [ih (by omega), specInsertIndex, nearestSurvivingPred]
          rw [specInsertIndex, nearestSurvivingPred, htake,
            @List.find?_cons_of_neg Block (fun pb => current.any fun c => c.id == pb.id)
              oldBlocks[i] (List.take i oldBlocks).reverse hneg]

theorem specRevertRemoved_eq_insert (oldBlocks current : List Block) (j : Nat) (ob : Block) :
    specRevertRemoved oldBlocks current j ob
      = current.take (specInsertIndex oldBlocks current j)
        ++ ob :: current.drop (specInsertIndex oldBlocks current j) := by
  cases hcase : nearestSurvivingPred oldBlocks current j with
  | none =>
      simp [specRevertRemoved, specInsertIndex, hcase, List.take_length, List.drop_length]
  | some pb =>
      cases hfind : findIndexById current pb.id with
      | none =>
          simp [specRevertRemoved, specInsertIndex, hcase, hfind, List.take_length,
            List.drop_length]
      | some p => simp [specRevertRemoved, specInsertIndex, hcase, hfind]

/-- C5: reverting a `removed` diff entry whose old block sat at position
`j` of the old document reinserts `entry.oldBlock` immediately after the
current position of the nearest preceding old-document block that still
exists in the current blocks, and appends it at the end when no such
surviving predecessor exists (exactly `specRevertRemoved`, which is
written from the spec's words). -/
theorem handleRevert_removed_position (oldData currentData : EditorData) (ob : Block)
    (nbOpt : Option Block) (chOpt : Option (List PropertyChange)) (now : String) (j : Nat)
    (hj : findIndexById oldData.blocks ob.id = some j) :
    handleRevert oldData currentData now ⟨.removed, some ob, nbOpt, chOpt⟩
      = some { currentData with
               blocks := specRevertRemoved oldData.blocks currentData.blocks j ob
               updatedAt := now } := by
  have hlt : j < oldData.blocks.length := findIndexById_lt_length _ _ _ hj
  have hmain : revertRemovedBlocks oldData.blocks currentData.blocks ob
      = specRevertRemoved oldData.blocks currentData.blocks j ob := by
    simp only [revertRemovedBlocks, hj]
    rw [scanBack_eq_specInsertIndex _ _ j (by omega), ← specRevertRemoved_eq_insert]
  cases nbOpt with
  | none => simp only [handleRevert, revertNewBlocks, Option.map_some', hmain]
  | some nb => simp only [handleRevert, revertNewBlocks, Option.map_some', hmain]

theorem handleRevert_removed_position_witness :
    handleRevert ⟨"1.0.0", "c", "u", [⟨"a", .nil⟩, ⟨"b", .nil⟩]⟩
        ⟨"1.0.0", "c", "u2", [⟨"a", .cons "content" (.str "hello") .nil⟩]⟩
        "t" ⟨.removed, some ⟨"b", .nil⟩, none, none⟩
      = some { (⟨"1.0.0", "c", "u2", [⟨"a", .cons "content" (.str "hello") .nil⟩]⟩ : EditorData) with
               blocks := specRevertRemoved [⟨"a", .nil⟩, ⟨"b", .nil⟩]
                 [⟨"a", .cons "content" (.str "hello") .nil⟩] 1 ⟨"b", .nil⟩
               updatedAt := "t" } :=
  handleRevert_removed_position ⟨"1.0.0", "c", "u", [⟨"a", .nil⟩, ⟨"b", .nil⟩]⟩
    ⟨"1.0.0", "c", "u2", [⟨"a", .cons "content" (.str "hello") .nil⟩]⟩
    ⟨"b", .nil⟩ none none "t" 1 (by decide)

/-- C7: three mutations fired within less than the debounce delay of each
other produce exactly one `onChange` notification, carrying the document
state after the third mutation (each mutation having cancelled and
rescheduled the single pending timer); and unmounting while a notification
is pending cancels it, so no notification ever fires after teardown. -/
theorem debounce_coalescing (delay : Nat) (doc0 : EditorData)
    (b1 b2 b3 bu : List Block) (n1 n2 n3 nu : String) (t1 t2 t3 tm tu : Nat)
    (h12 : t2 < t1 + delay) (h23 : t3 < t2 + delay) (hu : tu < tm + delay) :
    ((runEvents delay ⟨doc0, none⟩
        [.mutate b1 n1 t1, .mutate b2 n2 t2, .mutate b3 n3 t3]).2
      ++ settle (runEvents delay ⟨doc0, none⟩
        [.mutate b1 n1 t1, .mutate b2 n2 t2, .mutate b3 n3 t3]).1
      = [{ doc0 with blocks := b3, updatedAt := n3 }])
    ∧ ((runEvents delay ⟨doc0, none⟩ [.mutate bu nu tm, .unmount tu]).2
        ++ settle (runEvents delay ⟨doc0, none⟩ [.mutate bu nu tm, .unmount tu]).1
      = []) := by
  have e12 : ¬ (t1 + delay ≤ t2) := by omega
  have e23 : ¬ (t2 + delay ≤ t3) := by omega
  have eu : ¬ (tm + delay ≤ tu) := by omega
  constructor
  · simp [runEvents, stepEvent, fireIfDue, updateData, settle, e12, e23]
  · simp [runEvents, stepEvent, fireIfDue, updateData, settle, eu]

theorem debounce_coalescing_witness :
    ((runEvents 300 ⟨⟨"1.0.0", "c", "u", []⟩, none⟩
        [.mutate [⟨"x", .nil⟩] "T1" 0, .mutate [] "T2" 100,
          .mutate [⟨"y", .nil⟩] "T3" 200]).2
      ++ settle (runEvents 300 ⟨⟨"1.0.0", "c", "u", []⟩, none⟩
        [.mutate [⟨"x", .nil⟩] "T1" 0, .mutate [] "T2" 100,
          .mutate [⟨"y", .nil⟩] "T3" 200]).1
      = [{ (⟨"1.0.0", "c", "u", []⟩ : EditorData) with
           blocks := [⟨"y", .nil⟩], updatedAt := "T3" }])
    ∧ ((runEvents 300 ⟨⟨"1.0.0", "c", "u", []⟩, none⟩
          [.mutate [⟨"x", .nil⟩] "TU" 0, .unmount 100]).2
        ++ settle (runEvents 300 ⟨⟨"1.0.0", "c", "u", []⟩, none⟩
          [.mutate [⟨"x", .nil⟩] "TU" 0, .unmount 100]).1
      = []) :=
  debounce_coalescing 300 ⟨"1.0.0", "c", "u", []⟩ [⟨"x", .nil⟩] [] [⟨"y", .nil⟩]
    [⟨"x", .nil⟩] "T1" "T2" "T3" "TU" 0 100 200 0 100
    (by decide) (by decide) (by decide)

theorem setOfKeys_aux_mem (l : List String) :
    ∀ (acc : List String) (x : String),
      x ∈ l.foldl (fun acc k => if acc.contains k then acc else acc ++ [k]) acc
        ↔ x ∈ acc ∨ x ∈ l := by
  induction l with
  | nil => simp
  | cons k l ih =>
      intro acc x
      simp only [List.foldl_cons]
      rw [ih]
      by_cases hk : acc.contains k
      · have hk' : k ∈ acc := by simpa using hk
        simp only [if_pos hk, List.mem_cons]
        constructor
        · rintro (h | h)
          · exact Or.inl h
          · exact Or.inr (Or.inr h)
        · rintro (h | rfl | h)
          · exact Or.inl h
          · exact Or.inl hk'
          · exact Or.inr h
      · simp only [if_neg hk, List.mem_append, List.mem_singleton, List.mem_cons]
        tauto

theorem mem_setOfKeys (l : List String) (x : String) : x ∈ setOfKeys l ↔ x ∈ l := by
  rw [setOfKeys, setOfKeys_aux_mem]
  simp

theorem lookupField_of_not_mem : ∀ (fs : JsonFields) (key : String),
    key ∉ fieldKeys fs → lookupField fs key = .undef
  | .nil, _, _ => rfl
  | .cons k v rest, key, h => by
      simp only [fieldKeys, List.mem_cons] at h
      push_neg at h
      have hne : (k == key) = false := beq_eq_false_iff_ne.mpr (fun hh => h.1 hh.symm)
      simp [lookupField, hne, lookupField_of_not_mem rest key h.2]

theorem mem_fieldKeys_of_lookup_ne (fs : JsonFields) (key : String)
    (h : lookupField fs key ≠ .undef) : key ∈ fieldKeys fs := by
  by_contra hc
  exact h (lookupField_of_not_mem fs key hc)

/-- Membership characterization of the field-change list: a change is
recorded exactly for the non-`id` keys whose values differ under
`deepEqual`, carrying both looked-up values. -/
theorem mem_getPropertyChanges_iff (ob nb : Block) (c : PropertyChange) :
    c ∈ getPropertyChanges ob nb ↔
      c.path ≠ "id"
      ∧ deepEqual (lookupField ob.fields c.path) (lookupField nb.fields c.path) = false
      ∧ c.oldValue = lookupField ob.fields c.path
      ∧ c.newValue = lookupField nb.fields c.path := by
  rw [getPropertyChanges, List.mem_filterMap]
  constructor
  · rintro ⟨key, hmem, hf⟩
    by_cases hid : (key == "id") = true
    · rw [if_pos hid] at hf
      cases hf
    · rw [if_neg hid] at hf
      dsimp only at hf
      by_cases hde : deepEqual (lookupField ob.fields key) (lookupField nb.fields key) = true
      · rw [if_pos hde] at hf
        cases hf
      · rw [if_neg hde] at hf
        injection hf with hf
        subst hf
        exact ⟨by simpa using hid, by simpa using hde, rfl, rfl⟩
  · rintro ⟨hid, hde, hov, hnv⟩
    refine ⟨c.path, ?_, ?_⟩
    · rw [mem_setOfKeys, List.mem_append]
      by_cases ho : c.path ∈ fieldKeys ob.fields
      · exact Or.inl ho
      · right
        apply mem_fieldKeys_of_lookup_ne
        intro hn
        rw [lookupField_of_not_mem _ _ ho, hn] at hde
        simp [deepEqual] at hde
    · have hid' : (c.path == "id") = false := beq_eq_false_iff_ne.mpr hid
      rw [if_neg (by simp [hid'])]
      dsimp only
      rw [if_neg (by simp [hde])]
      obtain ⟨p, ov, nv⟩ := c
      simp only at hov hnv
      rw [hov, hnv]

/-- The field-change list is empty exactly when every non-`id` property of
the two blocks is `deepEqual` (a property absent from both blocks reads as
`undefined` on both sides and compares equal). -/
theorem getPropertyChanges_eq_nil_iff (ob nb : Block) :
    getPropertyChanges ob nb = [] ↔
      ∀ key, key ≠ "id" →
        deepEqual (lookupField ob.fields key) (lookupField nb.fields key) = true := by
  constructor
  · intro h key hkey
    by_contra hde
    rw [Bool.not_eq_true] at hde
    have : (⟨key, lookupField ob.fields key, lookupField nb.fields key⟩ : PropertyChange)
        ∈ getPropertyChanges ob nb :=
      (mem_getPropertyChanges_iff ob nb _).mpr ⟨hkey, hde, rfl, rfl⟩
    rw [h] at this
    cases this
  · intro h
    rw [List.eq_nil_iff_forall_not_mem]
    intro c hc
    obtain ⟨hid, hde, _, _⟩ := (mem_getPropertyChanges_iff ob nb c).mp hc
    rw [h c.path hid] at hde
    cases hde

theorem findById_eq_none (blocks : List Block) (i : String)
    (h : ∀ b ∈ blocks, b.id ≠ i) : findById blocks i = none := by
  induction blocks with
  | nil => rfl
  | cons b bs ih =>
      have h1 : (b.id == i) = false :=
        beq_eq_false_iff_ne.mpr (h b (List.mem_cons_self b bs))
      have h2 : findById bs i = none := ih (fun x hx => h x (List.mem_cons_of_mem _ hx))
      simp [findById, h1, h2]

theorem findById_of_nodup (blocks : List Block) (i : String) (b : Block)
    (hnd : (blocks.map Block.id).Nodup) (hb : b ∈ blocks) (hi : b.id = i) :
    findById blocks i = some b := by
  induction blocks with
  | nil => cases hb
  | cons c cs ih =>
      rw [List.map_cons, List.nodup_cons] at hnd
      rcases List.mem_cons.mp hb with rfl | hb'
      · have hnone : findById cs i = none := by
          apply findById_eq_none
          intro x hx hxi
          exact hnd.1 (by rw [hi, ← hxi]; exact List.mem_map_of_mem Block.id hx)
        simp [findById, hnone, hi]
      · have := ih hnd.2 hb'
        simp [findById, this]

theorem filter_eq_id_singleton (blocks : List Block) (b : Block)
    (hnd : (blocks.map Block.id).Nodup) (hb : b ∈ blocks) :
    blocks.filter (fun x => x.id == b.id) = [b] := by
  induction blocks with
  | nil => cases hb
  | cons c cs ih =>
      rw [List.map_cons, List.nodup_cons] at hnd
      rcases List.mem_cons.mp hb with rfl | hb'
      · rw [List.filter_cons_of_pos (by simp)]
        have : cs.filter (fun x => x.id == b.id) = [] := by
          rw [List.filter_eq_nil_iff]
          intro x hx
          simp only [Bool.not_eq_true, beq_eq_false_iff_ne]
          intro he
          exact hnd.1 (he ▸ List.mem_map_of_mem Block.id hx)
        rw [this]
      · have hne : (c.id == b.id) = false := by
          refine beq_eq_false_iff_ne.mpr ?_
          intro he
          exact hnd.1 (he ▸ List.mem_map_of_mem Block.id hb')
        rw [List.filter_cons_of_neg (by simp [hne])]
        exact ih hnd.2 hb'

/-- With unique ids on both sides, the diff holds exactly one entry for the
id of a block present in both documents: the entry produced by the walk. -/
theorem diff_filter_of_mem_both (oldData newData : EditorData)
    (hnew : (newData.blocks.map Block.id).Nodup)
    (nb : Block) (hnb : nb ∈ newData.blocks) :
    (compareEditorData oldData newData).blocks.filter (fun d => entryId d == nb.id)
      = [walkEntry oldData.blocks nb] := by
  show ((newData.blocks.map (walkEntry oldData.blocks))
      ++ (oldData.blocks.filter
          (fun b => !(newData.blocks.any (fun x => x.id == b.id)))).map
        (fun b => (⟨.removed, some b, none, none⟩ : BlockDiff))).filter
      (fun d => entryId d == nb.id) = _
  rw [List.filter_append]
  have h1 : (newData.blocks.map (walkEntry oldData.blocks)).filter
      (fun d => entryId d == nb.id) = [walkEntry oldData.blocks nb] := by
    rw [List.filter_map]
    have heq : newData.blocks.filter ((fun d => entryId d == nb.id) ∘ walkEntry oldData.blocks)
        = newData.blocks.filter (fun x => x.id == nb.id) := by
      apply List.filter_congr
      intro x _
      simp [Function.comp, entryId_walkEntry]
    rw [heq, filter_eq_id_singleton newData.blocks nb hnew hnb]
    rfl
  have h2 : ((oldData.blocks.filter
      (fun b => !(newData.blocks.any (fun x => x.id == b.id)))).map
        (fun b => (⟨.removed, some b, none, none⟩ : BlockDiff))).filter
      (fun d => entryId d == nb.id) = [] := by
    rw [List.filter_eq_nil_iff]
    intro d hd
    obtain ⟨b, hbmem, rfl⟩ := List.mem_map.mp hd
    have hbfil := (List.mem_filter.mp hbmem).2
    simp only [entryId, Bool.not_eq_true, beq_eq_false_iff_ne]
    intro he
    rw [Bool.not_eq_true', List.any_eq_false] at hbfil
    have hne := hbfil nb hnb
    simp only [beq_eq_false_iff_ne] at hne
    exact hne (beq_iff_eq.mpr he.symm)
  rw [h1, h2]
  rfl

/-- C2: a block present (by id) in both documents is classified `unchanged`
exactly when no field other than `id` differs under `deepEqual`, and
`modified` otherwise with every differing field recorded as a
`{path, oldValue, newValue}` change; a changed `type` discriminant in
particular yields a `modified` entry with a field change on `type`, never
an added/removed pair (the sole entry for the id is the walk entry). -/
theorem diff_block_classification (oldData newData : EditorData)
    (hold : (oldData.blocks.map Block.id).Nodup)
    (hnew : (newData.blocks.map Block.id).Nodup)
    (ob nb : Block) (hob : ob ∈ oldData.blocks) (hnb : nb ∈ newData.blocks)
    (hid : ob.id = nb.id) :
    ((compareEditorData oldData newData).blocks.filter (fun d => entryId d == nb.id)
      = [if getPropertyChanges ob nb = []
         then (⟨.unchanged, some ob, some nb, none⟩ : BlockDiff)
         else ⟨.modified, some ob, some nb, some (getPropertyChanges ob nb)⟩])
    ∧ (getPropertyChanges ob nb = [] ↔
        ∀ key, key ≠ "id" →
          deepEqual (lookupField ob.fields key) (lookupField nb.fields key) = true)
    ∧ (∀ key, key ≠ "id" →
        deepEqual (lookupField ob.fields key) (lookupField nb.fields key) = false →
        (⟨key, lookupField ob.fields key, lookupField nb.fields key⟩ : PropertyChange)
          ∈ getPropertyChanges ob nb)
    ∧ (deepEqual (lookupField ob.fields "type") (lookupField nb.fields "type") = false →
        (compareEditorData oldData newData).blocks.filter (fun d => entryId d == nb.id)
          = [⟨.modified, some ob, some nb, some (getPropertyChanges ob nb)⟩]
        ∧ "type" ∈ (getPropertyChanges ob nb).map PropertyChange.path) := by
  have hfind : findById oldData.blocks nb.id = some ob :=
    findById_of_nodup _ _ _ hold hob hid
  have hfil := diff_filter_of_mem_both oldData newData hnew nb hnb
  have hwalk : walkEntry oldData.blocks nb
      = if getPropertyChanges ob nb = []
        then (⟨.unchanged, some ob, some nb, none⟩ : BlockDiff)
        else ⟨.modified, some ob, some nb, some (getPropertyChanges ob nb)⟩ := by
    simp only [walkEntry, hfind]
    cases hc : getPropertyChanges ob nb with
    | nil => simp [hc]
    | cons c cs => simp [hc]
  refine ⟨?_, getPropertyChanges_eq_nil_iff ob nb, ?_, ?_⟩
  · rw [hfil, hwalk]
  · intro key hkey hde
    exact (mem_getPropertyChanges_iff ob nb _).mpr ⟨hkey, hde, rfl, rfl⟩
  · intro hde
    have hne : getPropertyChanges ob nb ≠ [] := by
      intro hnil
      rw [getPropertyChanges_eq_nil_iff] at hnil
      rw [hnil "type" (by decide)] at hde
      cases hde
    refine ⟨?_, ?_⟩
    · rw [hfil, hwalk, if_neg hne]
    · have hpath : ("type" : String) ≠ "id" := by decide
      have hmem : (⟨"type", lookupField ob.fields "type",
            lookupField nb.fields "type"⟩ : PropertyChange) ∈ getPropertyChanges ob nb :=
        (mem_getPropertyChanges_iff ob nb _).mpr ⟨hpath, hde, rfl, rfl⟩
      exact List.mem_map.mpr ⟨_, hmem, rfl⟩

theorem diff_block_classification_witness :
    ((compareEditorData ⟨"1.0.0", "c", "u", [⟨"a", .cons "content" (.str "hi") .nil⟩]⟩
        ⟨"1.0.0", "c", "u2", [⟨"a", .cons "content" (.str "hello") .nil⟩]⟩).blocks.filter
        (fun d => entryId d == (⟨"a", .cons "content" (.str "hello") .nil⟩ : Block).id)
      = [if getPropertyChanges ⟨"a", .cons "content" (.str "hi") .nil⟩
             ⟨"a", .cons "content" (.str "hello") .nil⟩ = []
         then (⟨.unchanged, some ⟨"a", .cons "content" (.str "hi") .nil⟩,
                some ⟨"a", .cons "content" (.str "hello") .nil⟩, none⟩ : BlockDiff)
         else ⟨.modified, some ⟨"a", .cons "content" (.str "hi") .nil⟩,
                some ⟨"a", .cons "content" (.str "hello") .nil⟩,
                some (getPropertyChanges ⟨"a", .cons "content" (.str "hi") .nil⟩
                  ⟨"a", .cons "content" (.str "hello") .nil⟩)⟩])
    ∧ (getPropertyChanges ⟨"a", .cons "content" (.str "hi") .nil⟩
          ⟨"a", .cons "content" (.str "hello") .nil⟩ = [] ↔
        ∀ key, key ≠ "id" →
          deepEqual (lookupField (.cons "content" (.str "hi") .nil) key)
            (lookupField (.cons "content" (.str "hello") .nil) key) = true)
    ∧ (∀ key, key ≠ "id" →
        deepEqual (lookupField (.cons "content" (.str "hi") .nil) key)
          (lookupField (.cons "content" (.str "hello") .nil) key) = false →
        (⟨key, lookupField (.cons "content" (.str "hi") .nil) key,
          lookupField (.cons "content" (.str "hello") .nil) key⟩ : PropertyChange)
          ∈ getPropertyChanges ⟨"a", .cons "content" (.str "hi") .nil⟩
              ⟨"a", .cons "content" (.str "hello") .nil⟩)
    ∧ (deepEqual (lookupField (.cons "content" (.str "hi") .nil) "type")
          (lookupField (.cons "content" (.str "hello") .nil) "type") = false →
        (compareEditorData ⟨"1.0.0", "c", "u", [⟨"a", .cons "content" (.str "hi") .nil⟩]⟩
            ⟨"1.0.0", "c", "u2", [⟨"a", .cons "content" (.str "hello") .nil⟩]⟩).blocks.filter
            (fun d => entryId d == (⟨"a", .cons "content" (.str "hello") .nil⟩ : Block).id)
          = [⟨.modified, some ⟨"a", .cons "content" (.str "hi") .nil⟩,
              some ⟨"a", .cons "content" (.str "hello") .nil⟩,
              some (getPropertyChanges ⟨"a", .cons "content" (.str "hi") .nil⟩
                ⟨"a", .cons "content" (.str "hello") .nil⟩)⟩]
        ∧ "type" ∈ (getPropertyChanges ⟨"a", .cons "content" (.str "hi") .nil⟩
            ⟨"a", .cons "content" (.str "hello") .nil⟩).map PropertyChange.path) :=
  diff_block_classification ⟨"1.0.0", "c", "u", [⟨"a", .cons "content" (.str "hi") .nil⟩]⟩
    ⟨"1.0.0", "c", "u2", [⟨"a", .cons "content" (.str "hello") .nil⟩]⟩
    (by decide) (by decide)
    ⟨"a", .cons "content" (.str "hi") .nil⟩ ⟨"a", .cons "content" (.str "hello") .nil⟩
    (by decide) (by decide) (by decide)

theorem diffType_beq_iff (a b : DiffType) : (a == b) = true ↔ a = b := by
  cases a <;> cases b <;> decide

theorem classification_partition (l : List BlockDiff) :
    (l.filter (fun d => d.type == DiffType.added)).length
      + (l.filter (fun d => d.type == DiffType.removed)).length
      + (l.filter (fun d => d.type == DiffType.modified)).length
      + (l.filter (fun d => d.type == DiffType.unchanged)).length
      = l.length := by
  induction l with
  | nil => rfl
  | cons d rest ih =>
      obtain ⟨ty, ob, nb, ch⟩ := d
      cases ty <;>
        simp only [List.filter_cons, diffType_beq_iff, List.length_cons] <;>
        simp <;> omega

theorem removedPred_iff (newBlocks : List Block) (b : Block) :
    (!(newBlocks.any (fun nb => nb.id == b.id))) = true ↔ b.id ∉ newBlocks.map Block.id := by
  rw [Bool.not_eq_true', ← Bool.not_eq_true, List.any_eq_true]
  constructor
  · intro h hmem
    obtain ⟨x, hx, he⟩ := List.mem_map.mp hmem
    exact h ⟨x, hx, beq_iff_eq.mpr he⟩
  · rintro h ⟨x, hx, he⟩
    exact h (List.mem_map.mpr ⟨x, hx, beq_iff_eq.mp he⟩)

theorem mem_diff_entryIds (oldData newData : EditorData) (i : String) :
    i ∈ (compareEditorData oldData newData).blocks.map entryId
      ↔ i ∈ oldData.blocks.map Block.id ∨ i ∈ newData.blocks.map Block.id := by
  rw [diff_entryIds, List.mem_append]
  constructor
  · rintro (h | h)
    · exact Or.inr h
    · obtain ⟨b, hbf, rfl⟩ := List.mem_map.mp h
      exact Or.inl (List.mem_map_of_mem _ (List.mem_filter.mp hbf).1)
  · rintro (h | h)
    · by_cases hn : i ∈ newData.blocks.map Block.id
      · exact Or.inl hn
      · right
        obtain ⟨b, hb, rfl⟩ := List.mem_map.mp h
        refine List.mem_map_of_mem _ (List.mem_filter.mpr ⟨hb, ?_⟩)
        exact (removedPred_iff newData.blocks b).mpr hn
    · exact Or.inl h

theorem diff_entryIds_nodup (oldData newData : EditorData)
    (hold : (oldData.blocks.map Block.id).Nodup)
    (hnew : (newData.blocks.map Block.id).Nodup) :
    ((compareEditorData oldData newData).blocks.map entryId).Nodup := by
  rw [diff_entryIds]
  refine List.Nodup.append hnew ?_ ?_
  · exact ((List.filter_sublist _).map Block.id).nodup hold
  · intro a ha hb
    obtain ⟨b, hbf, rfl⟩ := List.mem_map.mp hb
    have hpb := (List.mem_filter.mp hbf).2
    rw [removedPred_iff] at hpb
    exact hpb ha

/-- C1: with unique block ids on both sides, every id in the union of the
two documents' id sets appears in exactly one diff entry, and the four
summary counts add up to the number of entries, which equals the size of
the id union. -/
theorem compareEditorData_complete (oldData newData : EditorData)
    (hold : (oldData.blocks.map Block.id).Nodup)
    (hnew : (newData.blocks.map Block.id).Nodup) :
    (∀ i ∈ (oldData.blocks.map Block.id).toFinset
        ∪ (newData.blocks.map Block.id).toFinset,
        ((compareEditorData oldData newData).blocks.filter
          (fun d => entryId d == i)).length = 1)
    ∧ ((compareEditorData oldData newData).summary.added
        + (compareEditorData oldData newData).summary.removed
        + (compareEditorData oldData newData).summary.modified
        + (compareEditorData oldData newData).summary.unchanged
        = (compareEditorData oldData newData).blocks.length)
    ∧ ((compareEditorData oldData newData).blocks.length
        = ((oldData.blocks.map Block.id).toFinset
            ∪ (newData.blocks.map Block.id).toFinset).card) := by
  have hnodupE := diff_entryIds_nodup oldData newData hold hnew
  have hcount : ∀ i : String,
      ((compareEditorData oldData newData).blocks.filter
        (fun d => entryId d == i)).length
        = ((compareEditorData oldData newData).blocks.map entryId).count i := by
    intro i
    rw [← List.countP_eq_length_filter, List.count_eq_countP, List.countP_map]
    rfl
  have hfinset : ((compareEditorData oldData newData).blocks.map entryId).toFinset
      = (oldData.blocks.map Block.id).toFinset
        ∪ (newData.blocks.map Block.id).toFinset := by
    ext i
    simp only [List.mem_toFinset, Finset.mem_union]
    exact mem_diff_entryIds oldData newData i
  refine ⟨?_, classification_partition _, ?_⟩
  · intro i hi
    rw [hcount i]
    apply List.count_eq_one_of_mem hnodupE
    rw [mem_diff_entryIds]
    simpa [Finset.mem_union, List.mem_toFinset] using hi
  · rw [← hfinset, List.toFinset_card_of_nodup hnodupE, List.length_map]

theorem compareEditorData_complete_witness :
    (∀ i ∈ ((⟨"1.0.0", "c", "u", [⟨"a", .nil⟩, ⟨"b", .nil⟩]⟩ : EditorData).blocks.map
          Block.id).toFinset
        ∪ ((⟨"1.0.0", "c", "u2", [⟨"a", .cons "k" .null .nil⟩, ⟨"cid", .nil⟩]⟩ :
            EditorData).blocks.map Block.id).toFinset,
        ((compareEditorData ⟨"1.0.0", "c", "u", [⟨"a", .nil⟩, ⟨"b", .nil⟩]⟩
          ⟨"1.0.0", "c", "u2", [⟨"a", .cons "k" .null .nil⟩, ⟨"cid", .nil⟩]⟩).blocks.filter
          (fun d => entryId d == i)).length = 1)
    ∧ ((compareEditorData ⟨"1.0.0", "c", "u", [⟨"a", .nil⟩, ⟨"b", .nil⟩]⟩
          ⟨"1.0.0", "c", "u2", [⟨"a", .cons "k" .null .nil⟩, ⟨"cid", .nil⟩]⟩).summary.added
        + (compareEditorData ⟨"1.0.0", "c", "u", [⟨"a", .nil⟩, ⟨"b", .nil⟩]⟩
            ⟨"1.0.0", "c", "u2", [⟨"a", .cons "k" .null .nil⟩, ⟨"cid", .nil⟩]⟩).summary.removed
        + (compareEditorData ⟨"1.0.0", "c", "u", [⟨"a", .nil⟩, ⟨"b", .nil⟩]⟩
            ⟨"1.0.0", "c", "u2", [⟨"a", .cons "k" .null .nil⟩, ⟨"cid", .nil⟩]⟩).summary.modified
        + (compareEditorData ⟨"1.0.0", "c", "u", [⟨"a", .nil⟩, ⟨"b", .nil⟩]⟩
            ⟨"1.0.0", "c", "u2", [⟨"a", .cons "k" .null .nil⟩, ⟨"cid", .nil⟩]⟩).summary.unchanged
        = (compareEditorData ⟨"1.0.0", "c", "u", [⟨"a", .nil⟩, ⟨"b", .nil⟩]⟩
            ⟨"1.0.0", "c", "u2", [⟨"a", .cons "k" .null .nil⟩, ⟨"cid", .nil⟩]⟩).blocks.length)
    ∧ ((compareEditorData ⟨"1.0.0", "c", "u", [⟨"a", .nil⟩, ⟨"b", .nil⟩]⟩
          ⟨"1.0.0", "c", "u2", [⟨"a", .cons "k" .null .nil⟩, ⟨"cid", .nil⟩]⟩).blocks.length
        = (((⟨"1.0.0", "c", "u", [⟨"a", .nil⟩, ⟨"b", .nil⟩]⟩ : EditorData).blocks.map
              Block.id).toFinset
            ∪ ((⟨"1.0.0", "c", "u2", [⟨"a", .cons "k" .null .nil⟩, ⟨"cid", .nil⟩]⟩ :
                EditorData).blocks.map Block.id).toFinset).card) :=
  compareEditorData_complete ⟨"1.0.0", "c", "u", [⟨"a", .nil⟩, ⟨"b", .nil⟩]⟩
    ⟨"1.0.0", "c", "u2", [⟨"a", .cons "k" .null .nil⟩, ⟨"cid", .nil⟩]⟩
    (by decide) (by decide)

mutual

theorem jsonNormalize_of_undefFree :
    ∀ (v : JsonValue), undefFree v = true → jsonNormalize v = v
  | .str _, _ => rfl
  | .num _, _ => rfl
  | .bool _, _ => rfl
  | .null, _ => rfl
  | .undef, h => by cases h
  | .arr items, h => by
      simp only [undefFree] at h
      simp only [jsonNormalize]
      rw [jsonNormalizeList_of_undefFree items h]
  | .obj fields, h => by
      simp only [undefFree] at h
      simp only [jsonNormalize]
      rw [jsonNormalizeFields_of_undefFree fields h]

theorem jsonNormalizeList_of_undefFree :
    ∀ (l : JsonList), undefFreeList l = true → jsonNormalizeList l = l
  | .nil, _ => rfl
  | .cons v tl, h => by
      simp only [undefFreeList, Bool.and_eq_true] at h
      cases v with
      | undef => cases h.1
      | str s =>
          simp only [jsonNormalizeList]
          rw [jsonNormalize_of_undefFree _ h.1, jsonNormalizeList_of_undefFree tl h.2]
      | num n =>
          simp only [jsonNormalizeList]
          rw [jsonNormalize_of_undefFree _ h.1, jsonNormalizeList_of_undefFree tl h.2]
      | bool b =>
          simp only [jsonNormalizeList]
          rw [jsonNormalize_of_undefFree _ h.1, jsonNormalizeList_of_undefFree tl h.2]
      | null =>
          simp only [jsonNormalizeList]
          rw [jsonNormalize_of_undefFree _ h.1, jsonNormalizeList_of_undefFree tl h.2]
      | arr items =>
          simp only [jsonNormalizeList]
          rw [jsonNormalize_of_undefFree _ h.1, jsonNormalizeList_of_undefFree tl h.2]
      | obj fields =>
          simp only [jsonNormalizeList]
          rw [jsonNormalize_of_undefFree _ h.1, jsonNormalizeList_of_undefFree tl h.2]

theorem jsonNormalizeFields_of_undefFree :
    ∀ (fs : JsonFields), undefFreeFields fs = true → jsonNormalizeFields fs = fs
  | .nil, _ => rfl
  | .cons k v rest, h => by
      simp only [undefFreeFields, Bool.and_eq_true] at h
      cases v with
      | undef => cases h.1
      | str s =>
          simp only [jsonNormalizeFields]
          rw [jsonNormalize_of_undefFree _ h.1, jsonNormalizeFields_of_undefFree rest h.2]
      | num n =>
          simp only [jsonNormalizeFields]
          rw [jsonNormalize_of_undefFree _ h.1, jsonNormalizeFields_of_undefFree rest h.2]
      | bool b =>
          simp only [jsonNormalizeFields]
          rw [jsonNormalize_of_undefFree _ h.1, jsonNormalizeFields_of_undefFree rest h.2]
      | null =>
          simp only [jsonNormalizeFields]
          rw [jsonNormalize_of_undefFree _ h.1, jsonNormalizeFields_of_undefFree rest h.2]
      | arr items =>
          simp only [jsonNormalizeFields]
          rw [jsonNormalize_of_undefFree _ h.1, jsonNormalizeFields_of_undefFree rest h.2]
      | obj fields =>
          simp only [jsonNormalizeFields]
          rw [jsonNormalize_of_undefFree _ h.1, jsonNormalizeFields_of_undefFree rest h.2]

end

theorem removeField_of_not_mem : ∀ (fs : JsonFields) (key : String),
    key ∉ fieldKeys fs → removeField fs key = fs
  | .nil, _, _ => rfl
  | .cons k v rest, key, h => by
      simp only [fieldKeys, List.mem_cons] at h
      push_neg at h
      have hne : (k == key) = false := beq_eq_false_iff_ne.mpr (fun hh => h.1 hh.symm)
      simp [removeField, hne, removeField_of_not_mem rest key h.2]

theorem deserializeBlocks_roundtrip :
    ∀ (bs : List Block), bs.all blockSerializable = true →
      deserializeBlocks (jsonNormalizeList (blocksToJsonList bs)) = some bs
  | [], _ => rfl
  | b :: rest, h => by
      simp only [List.all_cons, Bool.and_eq_true] at h
      obtain ⟨hb, hrest⟩ := h
      rw [blockSerializable, Bool.and_eq_true] at hb
      have hid : "id" ∉ fieldKeys b.fields := by simpa using hb.1
      rw [blocksToJsonList, serializeBlock]
      simp only [jsonNormalizeList, jsonNormalize, jsonNormalizeFields]
      rw [jsonNormalizeFields_of_undefFree b.fields hb.2]
      rw [deserializeBlocks]
      have hbeq : (("id" : String) == "id") = true := rfl
      simp only [deserializeBlock, lookupField, removeField, hbeq, eq_self_iff_true, if_true]
      rw [removeField_of_not_mem b.fields "id" hid, deserializeBlocks_roundtrip rest hrest]

/-- C9 counterexample: a valid document whose list block carries an
explicitly-`undefined` `checkedItems` property (exactly what
`createListBlock('bullet')` produces) does NOT survive the JSON round-trip
field-for-field: `JSON.stringify` drops the `undefined`-valued key, so the
rehydrated document's block lacks the `checkedItems` property. -/
theorem json_roundtrip_counterexample :
    deserializeEditorData (jsonNormalize (serializeEditorData
        ⟨"1.0.0", "c", "u", [⟨"b1", .cons "type" (.str "list")
          (.cons "items" (.arr (.cons (.str "") .nil))
            (.cons "listType" (.str "bullet")
              (.cons "checkedItems" .undef .nil)))⟩]⟩))
      ≠ some ⟨"1.0.0", "c", "u", [⟨"b1", .cons "type" (.str "list")
          (.cons "items" (.arr (.cons (.str "") .nil))
            (.cons "listType" (.str "bullet")
              (.cons "checkedItems" .undef .nil)))⟩]⟩ := by
  decide

/-- C9 (amended): serializing a valid Document to the JSON-compatible
structure and rehydrating it reproduces a field-for-field equal document
for every document none of whose blocks has an explicitly-`undefined`
property (and none of whose blocks shadows `id` among its other
properties); a key explicitly set to `undefined` is dropped by JSON
serialization instead. -/
theorem json_roundtrip_amended (d : EditorData) (h : docSerializable d = true) :
    deserializeEditorData (jsonNormalize (serializeEditorData d)) = some d := by
  rw [serializeEditorData]
  simp only [jsonNormalize, jsonNormalizeFields]
  show deserializeEditorData
      (.obj (.cons "version" (.str d.version) (.cons "createdAt" (.str d.createdAt)
        (.cons "updatedAt" (.str d.updatedAt)
          (.cons "blocks" (.arr (jsonNormalizeList (blocksToJsonList d.blocks)))
            .nil))))) = some d
  show (deserializeBlocks (jsonNormalizeList (blocksToJsonList d.blocks))).map
      (fun bs => (⟨d.version, d.createdAt, d.updatedAt, bs⟩ : EditorData)) = some d
  rw [deserializeBlocks_roundtrip d.blocks h]
  rfl

theorem json_roundtrip_witness :
    docSerializable ⟨"1.0.0", "c", "u", [⟨"b1", .cons "type" (.str "text") .nil⟩]⟩ = true
    ∧ deserializeEditorData (jsonNormalize (serializeEditorData
        ⟨"1.0.0", "c", "u", [⟨"b1", .cons "type" (.str "text") .nil⟩]⟩))
      = some ⟨"1.0.0", "c", "u", [⟨"b1", .cons "type" (.str "text") .nil⟩]⟩ :=
  ⟨by decide, json_roundtrip_amended ⟨"1.0.0", "c", "u",
    [⟨"b1", .cons "type" (.str "text") .nil⟩]⟩ (by decide)⟩
